import Mathlib

/-!
Verification of the webwish/webtea multiplayer terminal-app server core.

This file shallowly embeds the Go source of the repository:
  * `unsafering/ring.go` — the single-writer ring buffer;
  * `bubbles/blokfall/gravity.go` — the gravity level table;
  * `bubbles/chat/server.go` — the chat shared-state roster and message relaying;
  * `bubbles/blokfall` board and piece motion (`Collides`, `ClearLines`, moves);
  * the tetris input-vote merge of `examples/tailscale-chat/main.go`;
  * `mpty/program.go` — the authoritative `Main.Update` save path and the
    `ClientMain` bootstrap/live delivery pipeline;
  * `mpty/mptymsg/recordable.go` — the recordable registry and JSON envelope.

Go strings are modelled as `List Char`, Go `time.Time`/`time.Duration` as `Nat`
(nanosecond counts; the Go zero value is `0`), Go maps as association lists with
map (key-extensional) insert/delete/lookup, and fallible or panicking code as
`Option`-returning functions.
-/

set_option autoImplicit false

/-! ### Go string helpers

`strings.Cut(s, sep)` for a one-character separator: returns the part before
the first occurrence, the part after, and whether the separator was found.
When the separator is absent Go returns `(s, "", false)`. -/

def cutChar (c : Char) : List Char → List Char × List Char × Bool
  | [] => ([], [], false)
  | x :: xs =>
    if x = c then ([], xs, true)
    else
      let r := cutChar c xs
      (x :: r.1, r.2.1, r.2.2)

/-! ### Go map model

Go maps are unordered; an association list whose `insert` first removes any
existing binding models them up to key/value extensionality, which is all the
translated code observes. -/

def mapErase {α : Type} (k : List Char) : List (List Char × α) →
    List (List Char × α)
  | [] => []
  | (k', v) :: l => if k' = k then mapErase k l else (k', v) :: mapErase k l

def mapInsert {α : Type} (k : List Char) (v : α) (l : List (List Char × α)) :
    List (List Char × α) :=
  (k, v) :: mapErase k l

def mapLookup {α : Type} (k : List Char) : List (List Char × α) → Option α
  | [] => none
  | (k', v) :: l => if k' = k then some v else mapLookup k l

def mapContains {α : Type} (k : List Char) (l : List (List Char × α)) : Bool :=
  (mapLookup k l).isSome

namespace Unsafering

/-! ### `unsafering/ring.go` -/

structure Buffer (α : Type) where
  data : List α
  size : Nat
  count : Nat
  write : Nat

/-- `New[T](size)`: a zeroed backing slice of length `size`. -/
def New (α : Type) [Inhabited α] (size : Nat) : Buffer α :=
  { data := List.replicate size default, size := size, count := 0, write := 0 }

/-- `Buffer.Push`: write at the write head, advance it modulo `size`, and
saturate `count` at `size` (Go: `r.count++; r.count = min(r.count, r.size)`). -/
def Buffer.Push {α : Type} (r : Buffer α) (v : α) : Buffer α :=
  { r with
    data := r.data.set r.write v
    write := (r.write + 1) % r.size
    count := min (r.count + 1) r.size }

/-- `Buffer.Len`: `if r.count < r.size { return r.count }; return r.size`. -/
def Buffer.Len {α : Type} (r : Buffer α) : Nat :=
  if r.count < r.size then r.count else r.size

/-- `Buffer.AtInWindow(i, window)`.  The Go indices are machine ints, so the
arguments are `Int` here.  In the branch that reaches the index computation we
have `0 ≤ i < window ≤ Len ≤ size` and `0 ≤ write < size`, so every
intermediate value of the Go `int` arithmetic is nonnegative and Go's
truncated `%` agrees with `Int.emod`. -/
def Buffer.AtInWindow {α : Type} [Inhabited α] (r : Buffer α) (i window : Int) :
    α × Bool :=
  let length : Int := r.Len
  let window := if window > length then length else window
  if i < 0 ∨ i ≥ window then (default, false)
  else
    let start := ((r.write : Int) - window + (r.size : Int)) % (r.size : Int)
    let idx := (start + i) % (r.size : Int)
    (r.data.getD idx.toNat default, true)

/-- The buffer obtained by pushing the elements of `vs`, oldest first, into a
fresh ring of capacity `N`. -/
def FromPushes (N : Nat) (vs : List Nat) : Buffer Nat :=
  vs.foldl Buffer.Push (New Nat N)

end Unsafering

namespace Blokfall

/-! ### `bubbles/blokfall/gravity.go`

The Go source declares `var gravityByLevel = [30]time.Duration{...}` but lists
only ten initializers, so entries 10 through 29 hold the zero `time.Duration`.
Durations are modelled in milliseconds. -/

def gravityByLevel : List Nat :=
  [800, 700, 600, 500, 400, 300, 250, 200, 150, 100] ++ List.replicate 20 0

/-- `GravityByLevel(lv)`: `if lv > len(gravityByLevel) { lv = len - 1 };
return gravityByLevel[lv]`.  The array length is 30, so the guard only fires
for `lv > 30`; an index outside `[0, 30)` panics, modelled as `none`. -/
def GravityByLevel (lv : Int) : Option Nat :=
  let lv := if lv > 30 then 29 else lv
  if 0 ≤ lv ∧ lv < 30 then some (gravityByLevel.getD lv.toNat 0) else none

/-- Modelled from the spec: the gravity table the spec describes — the level
table value at `min(lv, 9)`, i.e. 800 ms at level 0 decreasing to 100 ms at
level 9, and the clamped level-9 value of 100 ms for every level above 9. -/
def gravityOfSpec (lv : Nat) : Nat :=
  [800, 700, 600, 500, 400, 300, 250, 200, 150, 100].getD (min lv 9) 0

/-! ### The blokfall board (`bubbles/blokfall`, falling-block game)

Cell values are `uint8` color indices modelled as `Nat`; `Empty = 0`.
`Board.Cells` is stored top row first, exactly as in Go. -/

structure Piece where
  kind : List Char
  blocks : List (Int × Int)
  x : Int
  y : Int
  color : Nat

structure Board where
  width : Nat
  height : Nat
  cells : List (List Nat)

/-- `b.Cells[y][x]`; only evaluated under the guards `0 ≤ y < Height`,
`0 ≤ x < Width` established by `Collides`/`LockPiece`. -/
def cellAt (b : Board) (y x : Int) : Nat :=
  (b.cells.getD y.toNat []).getD x.toNat 0

/-- `Board.Collides`: a block collides when it is out of the side or bottom
bounds, or overlaps a non-empty cell (blocks above the top, `by < 0`, only
collide through the bounds checks). -/
def Board.Collides (b : Board) (p : Piece) : Bool :=
  p.blocks.any (fun blk =>
    let bx := p.x + blk.1
    let yy := p.y + blk.2
    if bx < 0 ∨ bx ≥ (b.width : Int) ∨ yy ≥ (b.height : Int) then true
    else if 0 ≤ yy ∧ cellAt b yy bx ≠ 0 then true
    else false)

/-- `RotateCW`: each block `(x, y) ↦ (-y, x)`. -/
def RotateCWBlocks (blocks : List (Int × Int)) : List (Int × Int) :=
  blocks.map (fun b => (-b.2, b.1))

/-- `RotateCCW`: each block `(x, y) ↦ (y, -x)`. -/
def RotateCCWBlocks (blocks : List (Int × Int)) : List (Int × Int) :=
  blocks.map (fun b => (b.2, -b.1))

inductive Move
  | left
  | right
  | rotCW
  | rotCCW
  | down

def movedPiece : Move → Piece → Piece
  | .left, p => { p with x := p.x - 1 }
  | .right, p => { p with x := p.x + 1 }
  | .rotCW, p => { p with blocks := RotateCWBlocks p.blocks }
  | .rotCCW, p => { p with blocks := RotateCCWBlocks p.blocks }
  | .down, p => { p with y := p.y + 1 }

/-- The shared shape of `Model.Left`, `Model.Right`, `Model.RotateCW`,
`Model.RotateCCW` and the gravity advance of `Model.SoftDown` /
`Model.HandleTickMsg`: apply the motion and revert it if the moved piece
collides.  `Left` undoes `p.X--` with `p.X++`, and a collided `RotateCW` is
undone by `RotateCCW` (the exact inverse, see `RotateCCWBlocks_RotateCWBlocks`
below), so the reverted result is the original piece.  The `Bool` reports
whether the move stuck. -/
def tryMove (b : Board) (mv : Move) (p : Piece) : Piece × Bool :=
  let p' := movedPiece mv p
  if b.Collides p' then (p, false) else (p', true)

/-- The Go loop `for x := 0; x < b.Width; x++ { if lines[y][x] == Empty
{ full = false; break } }`. -/
def isFullRow (w : Nat) (row : List Nat) : Bool :=
  (List.range w).all (fun x => row.getD x 0 ≠ 0)

/-- `Board.ClearLines`: walk the rows bottom-up, keep the non-full ones in
order, zero the full ones and reappend them, pad to `Height` with fresh empty
rows, and reverse back to top-down order.  Returns the new board and the
number of cleared lines. -/
def Board.ClearLines (b : Board) : Board × Nat :=
  let rows := b.cells.reverse
  let kept := rows.filter (fun r => !isFullRow b.width r)
  let cleared := rows.filter (fun r => isFullRow b.width r)
  let emptied := cleared.map (fun r => r.map (fun _ => 0))
  let newCells := kept ++ emptied
  let padded := newCells ++
    List.replicate (b.height - newCells.length) (List.replicate b.width 0)
  ({ b with cells := padded.reverse }, cleared.length)

/-- One block write of `Board.LockPiece`: `if by >= 0 && by < b.Height &&
bx >= 0 && bx < b.Width { b.Cells[by][bx] = p.Color }`. -/
def writeBlock (b : Board) (y x : Int) (c : Nat) : Board :=
  if 0 ≤ y ∧ y < (b.height : Int) ∧ 0 ≤ x ∧ x < (b.width : Int) then
    { b with
      cells := b.cells.set y.toNat ((b.cells.getD y.toNat []).set x.toNat c) }
  else b

/-- The block-writing phase of `Board.LockPiece`, before the line clear. -/
def Board.LockPieceCells (b : Board) (p : Piece) : Board :=
  p.blocks.foldl (fun b blk => writeBlock b (p.y + blk.2) (p.x + blk.1) p.color) b

/-- `Board.LockPiece`: write the piece's blocks, then `ClearLines`. -/
def Board.LockPiece (b : Board) (p : Piece) : Board × Nat :=
  (b.LockPieceCells p).ClearLines

/-- Total number of non-empty cells on a board. -/
def cellCount (cells : List (List Nat)) : Nat :=
  (cells.map (fun r => (r.filter (· ≠ 0)).length)).sum

end Blokfall

namespace Chat

/-! ### The chat roster (`bubbles/chat/server.go`)

`ServerModel.names : map[string]map[string]time.Time` maps a login to its live
sessions with join times.  `ClientConnectMsg`/`ClientDisconnectMsg` carry the
session id `"<login> <remote-addr>"`, split at the first space. -/

abbrev Roster := List (List Char × List (List Char × Nat))

inductive Event
  | connect (sid : List Char)
  | disconnect (sid : List Char)
deriving DecidableEq

/-- The `mpty.ClientConnectMsg` case of `ServerModel.UpdateChat`. -/
def applyConnect (tick : Nat) (names : Roster) (sid : List Char) : Roster :=
  let who := (cutChar ' ' sid).1
  let sess := (cutChar ' ' sid).2.1
  match mapLookup who names with
  | none => mapInsert who [(sess, tick)] names
  | some sessions => mapInsert who (mapInsert sess tick sessions) names

/-- The `mpty.ClientDisconnectMsg` case of `ServerModel.UpdateChat`: delete the
session if the login is known; if the login's session map is (or stays) empty,
delete the login too. -/
def applyDisconnect (names : Roster) (sid : List Char) : Roster :=
  let who := (cutChar ' ' sid).1
  let sess := (cutChar ' ' sid).2.1
  match mapLookup who names with
  | none => mapErase who names
  | some sessions =>
    let sessions := mapErase sess sessions
    if sessions.length = 0 then mapErase who names
    else mapInsert who sessions names

/-- Connect/disconnect handling of `ServerModel.UpdateChat`.  Sequences of
only these two events leave `m.tick` at its zero value, passed here as `0`. -/
def applyEvent (names : Roster) : Event → Roster
  | .connect sid => applyConnect 0 names sid
  | .disconnect sid => applyDisconnect names sid

def applyEvents (names : Roster) (es : List Event) : Roster :=
  es.foldl applyEvent names

/-- Session `sid` is present in the roster: its login maps to a session map
containing its remote-addr part. -/
def memRoster (names : Roster) (sid : List Char) : Bool :=
  match mapLookup (cutChar ' ' sid).1 names with
  | none => false
  | some sessions => mapContains (cutChar ' ' sid).2.1 sessions

/-- The `(login, session)` pair a session id is split into. -/
def sidKey (sid : List Char) : List Char × List Char :=
  ((cutChar ' ' sid).1, (cutChar ' ' sid).2.1)

def eventSid : Event → List Char
  | .connect s => s
  | .disconnect s => s

def isConnect : Event → Bool
  | .connect _ => true
  | .disconnect _ => false

def countConnect (sid : List Char) (es : List Event) : Nat :=
  (es.filter (fun e => isConnect e ∧ eventSid e = sid)).length

def countDisconnect (sid : List Char) (es : List Event) : Nat :=
  (es.filter (fun e => ¬ isConnect e = true ∧ eventSid e = sid)).length

/-- Whether the last event whose session id splits to the same
`(login, session)` pair as `sid` is a connect. -/
def lastIsConnect (sid : List Char) (es : List Event) : Bool :=
  match (es.filter (fun e => sidKey (eventSid e) = sidKey sid)).getLast? with
  | some e => isConnect e
  | none => false

/-! ### Chat message handling (`chatServer.UpdateChat`, examples/tailscale-chat)

The message type is `bubbles/chat.Msg`: exported `LocalAt`, `ServerAt`, `Who`,
`Sess`, `Str` and the unexported `nick`.  Code outside the chat package (the
clients live in `package main`) cannot set `nick`, so client-sent messages
arrive with it empty. -/

structure MsgW where
  localAt : Nat
  serverAt : Nat
  who : List Char
  sess : List Char
  str : List Char
  nick : List Char

/-- `NickFromWho`: `strings.Cut(who, "@")`; the part before the first `@` when
present, else `who` itself. -/
def NickFromWho (who : List Char) : List Char :=
  let r := cutChar '@' who
  if r.2.2 then r.1 else who

/-- `Msg.SetNick()` with no arguments: keep an already-set nick, else derive it
from `Who`. -/
def SetNick (m : MsgW) : MsgW :=
  if m.nick ≠ [] then m else { m with nick := NickFromWho m.who }

/-- Everything `chatServer.UpdateChat` broadcasts while handling one message
(`tetrisView` writes and system messages are other variants in the real
program; only chat messages matter to the claims below). -/
inductive ChatWrite
  | chat (m : MsgW)

/-- The `chat.Msg` case of `chatServer.UpdateChat`
(examples/tailscale-chat/main.go): stamp `ServerAt = time.Now()`, run
`SetNick()`, and broadcast the result if a broadcaster is registered (else the
message is dropped with a warning).  Returns the broadcast writes. -/
def UpdateChatMsg (now : Nat) (hasBroadcaster : Bool) (m : MsgW) :
    List ChatWrite :=
  let m := { m with serverAt := now }
  let m := SetNick m
  if hasBroadcaster then [.chat m] else []

end Chat

namespace TetrisVote

/-! ### Game input vote merge (`chatServer.tetrisInput`,
examples/tailscale-chat/main.go)

`tetris.Input` is a string type (`LeftMsg = "d"`, `InputNone = ""`, ...),
modelled as `List Char`.  The per-player pending-input map and its timestamp
map are Go maps; the vote loop iterates the pending map in Go's unspecified
map order — in every state the theorems below evaluate, that map is a
singleton, so the order is immaterial. -/

def InputNone : List Char := []

def LeftMsg : List Char := ['d']

def RightMsg : List Char := ['f']

def RotateCWMsg : List Char := ['k']

def RotateCCWMsg : List Char := ['j']

structure VoteState where
  inputs : List (List Char × List Char)
  inputTs : List (List Char × Nat)

/-- The `for _, input := range m.tetrisInputs` loop: bump the vote count of
each pending input (the sum map was just cleared) and fire as soon as one
reaches `half` (`if s >= half`, inclusive). -/
def voteLoop (half : Nat) :
    List (List Char × List Char) → List (List Char × Nat) → Option (List Char)
  | [], _ => none
  | (_, input) :: rest, sums =>
    let s := (mapLookup input sums).getD 0 + 1
    if s ≥ half then some input
    else voteLoop half rest (mapInsert input s sums)

/-- `chatServer.tetrisInput`: record the player's input and timestamp, set
`half = len(inputs) / 2`, and run the vote loop; on a winner, clear the
pending maps and return it, else return `InputNone`. -/
def tetrisInput (st : VoteState) (id : List Char) (cmd : List Char) (now : Nat) :
    List Char × VoteState :=
  let inputs := mapInsert id cmd st.inputs
  let inputTs := mapInsert id now st.inputTs
  let half := inputs.length / 2
  match voteLoop half inputs [] with
  | some input => (input, { inputs := [], inputTs := [] })
  | none => (InputNone, { inputs := inputs, inputTs := inputTs })

/-- The board's view of a fired vote: `UpdateTetris` feeds the winning input
to the tetris model, whose `Left`/`Right`/`RotateCW`/`RotateCCW` handlers are
the revert-on-collision moves of `tryMove` (`tetris` and `blokfall` share this
code).  Inputs that do not move the live piece sideways or rotate it are
outside the scenarios evaluated here and leave the piece unchanged. -/
def applyVotedInput (b : Blokfall.Board) (p : Blokfall.Piece) (i : List Char) :
    Blokfall.Piece :=
  if i = LeftMsg then (Blokfall.tryMove b .left p).1
  else if i = RightMsg then (Blokfall.tryMove b .right p).1
  else if i = RotateCWMsg then (Blokfall.tryMove b .rotCW p).1
  else if i = RotateCCWMsg then (Blokfall.tryMove b .rotCCW p).1
  else p

/-- Run a sequence of `tetrisInput{Id, Cmd}` events through the vote state and
apply every fired input to the live piece, collecting the fired inputs. -/
def runVotes (b : Blokfall.Board) :
    VoteState → Blokfall.Piece → List (List Char × List Char × Nat) →
    Blokfall.Piece × List (List Char)
  | _, p, [] => (p, [])
  | st, p, (id, cmd, now) :: rest =>
    let r := tetrisInput st id cmd now
    if r.1 = InputNone then runVotes b r.2 p rest
    else
      let p := applyVotedInput b p r.1
      let rec' := runVotes b r.2 p rest
      (rec'.1, r.1 :: rec'.2)

/-- The spec's vote-merge scenario: two players, both sending `Input{LEFT}`
within the same tick, starting from empty pending maps. -/
def scenarioEvents : List (List Char × List Char × Nat) :=
  [(['p', '1'], LeftMsg, 1), (['p', '2'], LeftMsg, 2)]

/-- The 12×24 empty board of a fresh game. -/
def scenarioBoard : Blokfall.Board :=
  { width := 12, height := 24, cells := List.replicate 24 (List.replicate 12 0) }

/-- A single-block piece at the spawn column. -/
def scenarioPiece : Blokfall.Piece :=
  { kind := ['O'], blocks := [(0, 0)], x := 6, y := 0, color := 33 }

def scenarioRun : Blokfall.Piece × List (List Char) :=
  runVotes scenarioBoard ⟨[], []⟩ scenarioPiece scenarioEvents

end TetrisVote

namespace Mpty

/-! ### The authoritative save path (`Main.Update`, mpty/program.go) composed
with the chat model's broadcast (`ServerModel.UpdateChat`, bubbles/chat)

`chat.Msg` is the `Recordable` exemplar: exported `At`, `Who`, `Sess`, `Str`
and unexported `nick`, `recId`. -/

structure RecMsg where
  atT : Int
  who : List Char
  sess : List Char
  str : List Char
  nick : List Char
  recId : Int
deriving DecidableEq

/-- `Msg.SetId`. -/
def SetId (m : RecMsg) (id : Int) : RecMsg :=
  { m with recId := id }

/-- The store's `Save` is external I/O; a run of the system fixes its result
for each call. -/
inductive SaveResult
  | ok (rec : RecMsg)
  | fail (err : List Char)

/-- `Main.Update` on a `Recordable` message, with the chat `ServerModel` as
the inner model.  First switch: `rec, err = m.recorder.Save(rec)`; on error
`log.Warn("message recording", err)` and the message stays the original, else
it is replaced by the persisted copy.  The message matches no case of the
second switch, so it reaches `m.Model.Update`, whose chat `Msg` case
broadcasts it if a broadcaster is registered.  Returns
(inner message, warn-log entries, broadcast writes); the handler always
returns to the loop. -/
def MainUpdateRecordable (save : RecMsg → SaveResult) (hasBroadcaster : Bool)
    (rec : RecMsg) : RecMsg × List (List Char) × List RecMsg :=
  let step :=
    match save rec with
    | .fail e => (rec, [e])
    | .ok rec' => (rec', ([] : List (List Char)))
  let msg := step.1
  let writes := if hasBroadcaster then [msg] else []
  (msg, step.2, writes)

/-! ### Client bootstrap and live delivery (`ClientMain`, mpty/program.go)

`ClientMain.Init` returns
`tea.Sequence(ClientModel.Init(), input-handle, connect-emit, bootstrap,
ReadMsgsCmd())`; `tea.Sequence` runs the commands one after another and each
resulting message is delivered to `Update` in that order.  A live batch
(`[]tea.Msg`) re-arms `ReadMsgsCmd` from `Update`, so live batches follow one
another until the subscriber blocks. -/

inductive ClientDelivery (μ : Type)
  | innerInit
  | inputHandle
  | disconnectWaiter
  | bootstrap (msgs : List RecMsg)
  | live (batch : List μ)

/-- The inner loop of `ReadMsgsCmd` once `m.msgs` is non-empty: emit the batch
when the non-blocking `Skip` sees nothing ready (`avail k = false`) or the
50 ms deadline since the first item has passed (`dl k = true`); otherwise
`Next` returns at once and the item is coalesced.  `k` counts consumed items
and stands in for wall time; `avail`/`dl` are the run's schedule.  Returns the
batch, the unconsumed stream, and the new clock. -/
def fillBatch {μ : Type} (avail dl : Nat → Bool) :
    Nat → List μ → List μ → List μ × List μ × Nat
  | k, cur, [] => (cur, [], k)
  | k, cur, y :: rest =>
    if !avail k then (cur, y :: rest, k)
    else if dl k then (cur, y :: rest, k)
    else fillBatch avail dl (k + 1) (cur ++ [y]) rest

/-- Repeated `ReadMsgsCmd` runs over the post-subscription stream: each run
blocks in `Next` for the first item, coalesces via `fillBatch`, emits, and is
re-armed.  When the stream is exhausted the subscriber blocks and no further
batch is delivered.  The fuel is the stream length (each batch consumes at
least one item). -/
def readBatchesFuel {μ : Type} (avail dl : Nat → Bool) :
    Nat → Nat → List μ → List (List μ)
  | 0, _, _ => []
  | _ + 1, _, [] => []
  | fuel + 1, k, x :: rest =>
    let r := fillBatch avail dl (k + 1) [x] rest
    r.1 :: readBatchesFuel avail dl fuel r.2.2 r.2.1

def readBatches {μ : Type} (avail dl : Nat → Bool) (stream : List μ) :
    List (List μ) :=
  readBatchesFuel avail dl stream.length 0 stream

/-- `SqliteRecorder.Read(n)`: the newest `n` records by
`ORDER BY ts DESC, id DESC LIMIT n`, then `slices.Reverse` — ids are assigned
monotonically and save timestamps are nondecreasing in id, so this is the last
`n` elements of the store in save order, oldest first. -/
def ReadRecent (store : List RecMsg) (n : Nat) : List RecMsg :=
  (store.reverse.take n).reverse

/-- The full delivery order a client session's UI model sees, per
`ClientMain.Init` and the `[]tea.Msg` re-arm in `ClientMain.Update`: the inner
model's init, the input-channel handle, the disconnect-waiter command message,
the bootstrap replay as one batched message (a `[]mptymsg.Recordable`, a
distinct variant from the `[]tea.Msg` live batches), then the live batches. -/
def ClientDeliveries {μ : Type} (initialMsgs : List RecMsg)
    (avail dl : Nat → Bool) (stream : List μ) : List (ClientDelivery μ) :=
  [.innerInit, .inputHandle, .disconnectWaiter, .bootstrap initialMsgs]
    ++ (readBatches avail dl stream).map .live

def isLiveDelivery {μ : Type} : ClientDelivery μ → Bool
  | .live _ => true
  | _ => false

def isBootstrapDelivery {μ : Type} : ClientDelivery μ → Bool
  | .bootstrap _ => true
  | _ => false

end Mpty

namespace Mptymsg

/-! ### Recordable registry and JSON envelope (`mpty/mptymsg/recordable.go`)

JSON values are modelled structurally; `time.Time` fields marshal as their
nanosecond count.  The only `Register` call in the repository is
`mptymsg.Register(chat.Msg{})`, so the registry holds the `"chat.Msg"`
decoder. -/

inductive Json
  | null
  | num (n : Int)
  | str (s : List Char)
  | obj (fields : List (List Char × Json))

/-- The registered concrete `Recordable` types. -/
inductive Recordable
  | chatMsg (m : Mpty.RecMsg)
deriving DecidableEq

def TypeName : Recordable → List Char
  | .chatMsg _ => ['c', 'h', 'a', 't', '.', 'M', 's', 'g']

/-- `json.Marshal` of a `chat.Msg`: an object of the exported fields in
declaration order; the unexported `nick` and `recId` are skipped. -/
def msgToJson (m : Mpty.RecMsg) : Json :=
  .obj [(['A', 't'], .num m.atT),
        (['W', 'h', 'o'], .str m.who),
        (['S', 'e', 's', 's'], .str m.sess),
        (['S', 't', 'r'], .str m.str)]

def getField (k : List Char) : List (List Char × Json) → Option Json
  | [] => none
  | (k', v) :: fs => if k' = k then some v else getField k fs

/-- `json.Unmarshal` into a zero `chat.Msg`: each exported field is filled
from a matching key of the right JSON type (missing keys leave the zero
value, a mistyped value is a decode error); the unexported `nick` and `recId`
stay at their zero values. -/
def msgFromJson : Json → Option Mpty.RecMsg
  | .obj fields => do
    let atV ← match getField ['A', 't'] fields with
      | none => some 0
      | some (.num n) => some n
      | some _ => none
    let who ← match getField ['W', 'h', 'o'] fields with
      | none => some []
      | some (.str s) => some s
      | some _ => none
    let sess ← match getField ['S', 'e', 's', 's'] fields with
      | none => some []
      | some (.str s) => some s
      | some _ => none
    let str ← match getField ['S', 't', 'r'] fields with
      | none => some []
      | some (.str s) => some s
      | some _ => none
    some { atT := atV, who := who, sess := sess, str := str,
           nick := [], recId := 0 }
  | _ => none

/-- The registry built by `Register(chat.Msg{})`: `TypeName → decoder`. -/
def decoders : List (List Char × (Json → Option Recordable)) :=
  [(['c', 'h', 'a', 't', '.', 'M', 's', 'g'],
    fun j => (msgFromJson j).map Recordable.chatMsg)]

/-- `JsonMarshal`: the envelope `{Type: t.TypeName(), Payload: t}`. -/
def JsonMarshal (t : Recordable) : Json :=
  .obj [(['T', 'y', 'p', 'e'], .str (TypeName t)),
        (['P', 'a', 'y', 'l', 'o', 'a', 'd'],
         match t with | .chatMsg m => msgToJson m)]

/-- `JsonUnmarshal`: decode the envelope, look the type key up in the
registry (unknown keys fail with "unregistered type"), and run the decoder on
the payload. -/
def JsonUnmarshal (j : Json) : Option Recordable :=
  match j with
  | .obj fields =>
    let t := match getField ['T', 'y', 'p', 'e'] fields with
      | some (.str s) => some s
      | none => some []
      | some _ => none
    match t with
    | none => none
    | some t =>
      match mapLookup t decoders with
      | none => none
      | some d =>
        match getField ['P', 'a', 'y', 'l', 'o', 'a', 'd'] fields with
        | some p => d p
        | none => d .null
  | _ => none

end Mptymsg

/-! ## Theorems -/

/-! ### Helper lemmas -/

theorem RotateCCWBlocks_RotateCWBlocks (bl : List (Int × Int)) :
    Blokfall.RotateCCWBlocks (Blokfall.RotateCWBlocks bl) = bl := by
  simp only [Blokfall.RotateCCWBlocks, Blokfall.RotateCWBlocks, List.map_map]
  have h : ((fun b : Int × Int => (b.2, -b.1)) ∘ fun b : Int × Int => (-b.2, b.1)) = id := by
    funext b
    simp
  rw [h, List.map_id]

theorem RotateCWBlocks_RotateCCWBlocks (bl : List (Int × Int)) :
    Blokfall.RotateCWBlocks (Blokfall.RotateCCWBlocks bl) = bl := by
  simp only [Blokfall.RotateCWBlocks, Blokfall.RotateCCWBlocks, List.map_map]
  have h : ((fun b : Int × Int => (-b.2, b.1)) ∘ fun b : Int × Int => (b.2, -b.1)) = id := by
    funext b
    simp
  rw [h, List.map_id]

/-- `NickFromWho` is the prefix of `who` before the first `'@'` (the whole
string when there is none). -/
theorem nickFromWho_eq_takeWhile (w : List Char) :
    Chat.NickFromWho w = w.takeWhile (fun c => c ≠ '@') := by
  induction w with
  | nil => rfl
  | cons x xs ih =>
    by_cases hx : x = '@'
    · subst hx
      simp [Chat.NickFromWho, cutChar]
    · have ht : (x :: xs).takeWhile (fun c => c ≠ '@') =
          x :: xs.takeWhile (fun c => c ≠ '@') := by
        simp [List.takeWhile_cons, hx]
      rw [ht, ← ih]
      by_cases hf : (cutChar '@' xs).2.2
      · simp [Chat.NickFromWho, cutChar, if_neg hx, hf]
      · simp [Chat.NickFromWho, cutChar, if_neg hx, hf]

/-! ### C4 — gravity level table -/

/-- C4: the claim says `GravityByLevel(lv)` is the level table at
`min(lv, 9)`, 100 ms for every level above 9.  The code agrees on levels 0–9
but the `[30]time.Duration` array leaves levels 10–29 at the zero duration, so
`GravityByLevel(10)` is 0 ms instead of the claimed 100 ms, and
`GravityByLevel(30)` indexes out of range (the `lv > len` clamp misses it and
the access panics). -/
theorem gravityByLevel_table_bug :
    (∀ lv : Fin 10,
      Blokfall.GravityByLevel lv = some (Blokfall.gravityOfSpec lv)) ∧
    Blokfall.GravityByLevel 10 = some 0 ∧
    Blokfall.gravityOfSpec 10 = 100 ∧
    Blokfall.GravityByLevel 30 = none ∧
    Blokfall.GravityByLevel 31 = some 0 := by
  refine ⟨?_, by decide, by decide, by decide, by decide⟩
  decide

/-! ### C9 — game vote merge -/

/-- C9 (counterexample): in the spec's two-player scenario — both players send
`Input{LEFT}` in the same tick — each of the two inputs individually meets the
inclusive `len(inputs)/2` threshold, so the board observes two LEFTs (the
piece moves from column 6 to column 4), not exactly one. -/
theorem vote_merge_counterexample :
    TetrisVote.scenarioRun.2 = [TetrisVote.LeftMsg, TetrisVote.LeftMsg] ∧
    TetrisVote.scenarioRun.1.x = 4 ∧
    ¬ TetrisVote.scenarioRun.2.length = 1 := by
  refine ⟨by decide, by decide, by decide⟩

/-- C9 (amended): any single input arriving while the pending-input map is
empty (its state at startup and right after every fired vote) satisfies the
majority threshold by itself, so in the two-player same-tick LEFT scenario the
majority threshold is satisfied and the board observes one LEFT per input:
exactly two, moving the current piece two columns left. -/
theorem vote_merge_amended :
    (∀ (st : TetrisVote.VoteState) (id cmd : List Char) (now : Nat),
      st.inputs = [] → (TetrisVote.tetrisInput st id cmd now).1 = cmd) ∧
    TetrisVote.scenarioRun.2 = [TetrisVote.LeftMsg, TetrisVote.LeftMsg] ∧
    TetrisVote.scenarioRun.1.x = TetrisVote.scenarioPiece.x - 2 := by
  refine ⟨?_, by decide, by decide⟩
  intro st id cmd now h
  obtain ⟨ins, ts⟩ := st
  simp only at h
  subst h
  simp [TetrisVote.tetrisInput, TetrisVote.voteLoop, mapInsert, mapErase,
    mapLookup]

theorem vote_merge_amended_witness :
    (TetrisVote.tetrisInput ⟨[], []⟩ ['p', '1'] TetrisVote.LeftMsg 1).1 =
      TetrisVote.LeftMsg :=
  vote_merge_amended.1 ⟨[], []⟩ ['p', '1'] TetrisVote.LeftMsg 1 rfl

/-! ### C2 — store `Save` failure on the authoritative loop -/

/-- C2 (counterexample): when `Save` fails, `Main.Update` logs the failure and
keeps the original message, which still reaches the inner chat model and is
broadcast unchanged — contradicting the claim that the recordable is not
broadcast on the bus. -/
theorem save_failure_counterexample :
    (Mpty.MainUpdateRecordable (fun _ => .fail ['b', 'o', 'o', 'm']) true
        ⟨0, ['a'], [], ['h', 'i'], [], 0⟩).2.1 = [['b', 'o', 'o', 'm']] ∧
    ¬ (Mpty.MainUpdateRecordable (fun _ => .fail ['b', 'o', 'o', 'm']) true
        ⟨0, ['a'], [], ['h', 'i'], [], 0⟩).2.2 = [] := by
  refine ⟨rfl, by decide⟩

/-- C2 (amended): when the persistent store's `Save` fails for a `Recordable`,
the failure is logged and the message is not replaced by a persisted copy; the
original recordable is passed on to the inner model, which still broadcasts it
when a broadcaster is registered, and the authoritative loop continues (the
handler returns normally). -/
theorem save_failure_amended (save : Mpty.RecMsg → Mpty.SaveResult)
    (hb : Bool) (rec : Mpty.RecMsg) (e : List Char)
    (h : save rec = .fail e) :
    Mpty.MainUpdateRecordable save hb rec =
      (rec, [e], if hb then [rec] else []) := by
  simp [Mpty.MainUpdateRecordable, h]

theorem save_failure_amended_witness :
    Mpty.MainUpdateRecordable (fun _ => .fail ['x']) true
        ⟨0, ['a'], [], ['h', 'i'], [], 0⟩ =
      (⟨0, ['a'], [], ['h', 'i'], [], 0⟩, [['x']],
        [⟨0, ['a'], [], ['h', 'i'], [], 0⟩]) := by
  have := save_failure_amended (fun _ => .fail ['x']) true
    ⟨0, ['a'], [], ['h', 'i'], [], 0⟩ ['x'] rfl
  simpa using this

/-! ### C5 — chat message stamping and broadcast -/

/-- C5: handling a `chat.Msg` with a registered broadcaster stamps the server
timestamp, derives the display nick as the prefix of `Who` before the first
`'@'` (client-sent messages arrive with the unexported `nick` empty), and
broadcasts exactly one chat message, whose `ServerAt` is populated. -/
theorem chat_msg_stamped_and_broadcast_once (now : Nat) (m : Chat.MsgW)
    (hnow : now ≠ 0) (hnick : m.nick = []) :
    ∃ m' : Chat.MsgW,
      Chat.UpdateChatMsg now true m = [.chat m'] ∧
      (Chat.UpdateChatMsg now true m).length = 1 ∧
      m'.serverAt = now ∧ m'.serverAt ≠ 0 ∧
      m'.nick = m.who.takeWhile (fun c => c ≠ '@') ∧
      m'.who = m.who ∧ m'.sess = m.sess ∧ m'.str = m.str ∧
      m'.localAt = m.localAt := by
  refine ⟨{ m with serverAt := now, nick := Chat.NickFromWho m.who }, ?_⟩
  simp [Chat.UpdateChatMsg, Chat.SetNick, hnick, hnow,
    nickFromWho_eq_takeWhile]

theorem chat_msg_stamped_witness :
    ∃ m' : Chat.MsgW,
      Chat.UpdateChatMsg 5 true
          ⟨1, 0, ['a', '@', 'h'], ['s'], ['h', 'i'], []⟩ = [.chat m'] ∧
      (Chat.UpdateChatMsg 5 true
          ⟨1, 0, ['a', '@', 'h'], ['s'], ['h', 'i'], []⟩).length = 1 ∧
      m'.serverAt = 5 ∧ m'.serverAt ≠ 0 ∧
      m'.nick = ['a', '@', 'h'].takeWhile (fun c => c ≠ '@') ∧
      m'.who = ['a', '@', 'h'] ∧ m'.sess = ['s'] ∧ m'.str = ['h', 'i'] ∧
      m'.localAt = 1 :=
  chat_msg_stamped_and_broadcast_once 5
    ⟨1, 0, ['a', '@', 'h'], ['s'], ['h', 'i'], []⟩ (by decide) rfl

/-! ### C10 — recordable JSON round trip -/

/-- C10: for a value of the registered concrete type `chat.Msg`,
`JsonUnmarshal ∘ JsonMarshal` succeeds and returns the same concrete type with
equal exported fields; the unexported `nick` and `recId` come back at their
zero values, so they are not preserved. -/
theorem recordable_json_roundtrip :
    (∀ m : Mpty.RecMsg,
      Mptymsg.JsonUnmarshal (Mptymsg.JsonMarshal (.chatMsg m)) =
        some (.chatMsg { m with nick := [], recId := 0 })) ∧
    (∀ m : Mpty.RecMsg, m.nick ≠ [] →
      Mptymsg.JsonUnmarshal (Mptymsg.JsonMarshal (.chatMsg m)) ≠
        some (.chatMsg m)) := by
  have h : ∀ m : Mpty.RecMsg,
      Mptymsg.JsonUnmarshal (Mptymsg.JsonMarshal (.chatMsg m)) =
        some (.chatMsg { m with nick := [], recId := 0 }) := fun m => rfl
  refine ⟨h, fun m hm heq => ?_⟩
  rw [h m] at heq
  have := (Option.some_inj.mp heq)
  have h2 := congrArg (fun r => match r with | Mptymsg.Recordable.chatMsg m => m.nick) this
  simp at h2
  exact hm h2

theorem recordable_json_roundtrip_witness :
    Mptymsg.JsonUnmarshal (Mptymsg.JsonMarshal
        (.chatMsg ⟨3, ['a'], ['s'], ['h', 'i'], ['n'], 7⟩)) ≠
      some (.chatMsg ⟨3, ['a'], ['s'], ['h', 'i'], ['n'], 7⟩) :=
  recordable_json_roundtrip.2 ⟨3, ['a'], ['s'], ['h', 'i'], ['n'], 7⟩
    (by decide)

/-! ### C6 — ring buffer capacity and windowed access -/

/-- Pushing preserves the buffer's structural invariants and adds one to the
saturating count. -/
theorem foldl_push_invariants {α : Type} (vs : List α) (r : Unsafering.Buffer α)
    (hsz : 0 < r.size) (hd : r.data.length = r.size) (hw : r.write < r.size)
    (hc : r.count ≤ r.size) :
    (vs.foldl Unsafering.Buffer.Push r).size = r.size ∧
    (vs.foldl Unsafering.Buffer.Push r).data.length = r.size ∧
    (vs.foldl Unsafering.Buffer.Push r).write < r.size ∧
    (vs.foldl Unsafering.Buffer.Push r).count = min (r.count + vs.length) r.size := by
  induction vs generalizing r with
  | nil =>
    refine ⟨rfl, hd, hw, ?_⟩
    simp only [List.foldl_nil, List.length_nil, Nat.add_zero]
    omega
  | cons v vs ih =>
    simp only [List.foldl_cons, List.length_cons]
    have h1 : (r.Push v).size = r.size := rfl
    have h2 : (r.Push v).data.length = r.size := by
      simp [Unsafering.Buffer.Push, List.length_set, hd]
    have h3 : (r.Push v).write < r.size := by
      simp only [Unsafering.Buffer.Push]
      exact Nat.mod_lt _ hsz
    have h4 : (r.Push v).count = min (r.count + 1) r.size := rfl
    have := ih (r.Push v) (h1 ▸ hsz) (h1 ▸ h2) (h1 ▸ h3) (by rw [h4, h1]; omega)
    rw [h1] at this
    refine ⟨this.1, this.2.1, this.2.2.1, ?_⟩
    rw [this.2.2.2, h4]
    omega

/-- After a push, the slot one before the (new) write head holds the pushed
value. -/
theorem push_getD_last {α : Type} [Inhabited α] (r : Unsafering.Buffer α) (v : α)
    (hsz : 0 < r.size) (hd : r.data.length = r.size) (hw : r.write < r.size) :
    (r.Push v).data.getD (((r.Push v).write + r.size - 1) % r.size) default = v := by
  have hidx : ((r.Push v).write + r.size - 1) % r.size = r.write := by
    simp only [Unsafering.Buffer.Push]
    rcases Nat.lt_or_ge (r.write + 1) r.size with h | h
    · rw [Nat.mod_eq_of_lt h]
      have heq : r.write + 1 + r.size - 1 = r.write + r.size := by omega
      rw [heq, Nat.add_mod_right, Nat.mod_eq_of_lt hw]
    · have heq : r.write + 1 = r.size := by omega
      rw [heq, Nat.mod_self]
      have heq2 : 0 + r.size - 1 = r.size - 1 := by omega
      rw [heq2, Nat.mod_eq_of_lt (by omega)]
      omega
  rw [hidx]
  simp only [Unsafering.Buffer.Push]
  rw [List.getD_eq_getElem?_getD, List.getElem?_set_eq_of_lt v (hd ▸ hw)]
  rfl

/-- `Len` never exceeds `size`. -/
theorem len_le_size {α : Type} (r : Unsafering.Buffer α) : r.Len ≤ r.size := by
  unfold Unsafering.Buffer.Len
  split <;> omega

/-- `AtInWindow (Len-1) Len` reads the slot one before the write head. -/
theorem atInWindow_last {α : Type} [Inhabited α] (r : Unsafering.Buffer α)
    (hsz : 0 < r.size) (hlen : 1 ≤ r.Len) :
    r.AtInWindow ((r.Len : Int) - 1) (r.Len : Int) =
      (r.data.getD ((r.write + r.size - 1) % r.size) default, true) := by
  have hls : r.Len ≤ r.size := len_le_size r
  simp only [Unsafering.Buffer.AtInWindow, gt_iff_lt, lt_irrefl, ite_false,
    lt_self_iff_false]
  rw [if_neg (by omega)]
  have hstart : ((r.write : Int) - (r.Len : Int) + (r.size : Int)) =
      ((r.write + r.size - r.Len : Nat) : Int) := by omega
  have hi : ((r.Len : Int) - 1) = ((r.Len - 1 : Nat) : Int) := by omega
  rw [hstart, hi, ← Int.natCast_mod, ← Int.natCast_add, ← Int.natCast_mod,
    Int.toNat_natCast]
  rw [Nat.mod_add_mod]
  have harith : r.write + r.size - r.Len + (r.Len - 1) = r.write + r.size - 1 := by
    omega
  rw [harith]

/-- `AtInWindow` returns `(zero, false)` exactly on the claimed index
condition `i < 0 ∨ i ≥ min w Len`. -/
theorem atInWindow_fail_iff {α : Type} [Inhabited α] (r : Unsafering.Buffer α)
    (i w : Int) :
    r.AtInWindow i w = (default, false) ↔ i < 0 ∨ i ≥ min w (r.Len : Int) := by
  simp only [Unsafering.Buffer.AtInWindow]
  have hmin : (if w > (r.Len : Int) then (r.Len : Int) else w) =
      min w (r.Len : Int) := by
    rw [min_def]
    split <;> split <;> omega
  rw [hmin]
  split
  · simpa using ‹i < 0 ∨ i ≥ min w (r.Len : Int)›
  · simp only [Prod.mk.injEq]
    constructor
    · rintro ⟨-, h⟩
      exact absurd h (by simp)
    · intro h
      exact absurd h ‹¬(i < 0 ∨ i ≥ min w (r.Len : Int))›

/-- C6: after `k` pushes into a ring of capacity `N ≥ 1`, `Len = min k N`;
`AtInWindow (Len-1, Len)` returns the most recent push with `ok = true`; and
`AtInWindow (i, w)` returns the zero value with `ok = false` exactly when
`i < 0 ∨ i ≥ min w Len`. -/
theorem ring_capacity (N : Nat) (hN : 1 ≤ N) (vs : List Nat) (hvs : vs ≠ []) :
    (Unsafering.FromPushes N vs).Len = min vs.length N ∧
    (Unsafering.FromPushes N vs).AtInWindow
        (((Unsafering.FromPushes N vs).Len : Int) - 1)
        ((Unsafering.FromPushes N vs).Len : Int) =
      (vs.getLast hvs, true) ∧
    ∀ i w : Int,
      (Unsafering.FromPushes N vs).AtInWindow i w = (0, false) ↔
        i < 0 ∨ i ≥ min w ((Unsafering.FromPushes N vs).Len : Int) := by
  have hnew : (Unsafering.New Nat N).size = N ∧
      (Unsafering.New Nat N).data.length = N ∧
      (Unsafering.New Nat N).write < N ∧ (Unsafering.New Nat N).count = 0 :=
    ⟨rfl, by simp [Unsafering.New], by simpa [Unsafering.New] using hN, rfl⟩
  have hinv := foldl_push_invariants vs (Unsafering.New Nat N)
    (by omega) hnew.2.1 hnew.2.2.1 (by omega)
  rw [hnew.1,
    show List.foldl Unsafering.Buffer.Push (Unsafering.New Nat N) vs =
      Unsafering.FromPushes N vs from rfl] at hinv
  have hcount : (Unsafering.FromPushes N vs).count = min vs.length N := by
    rw [hinv.2.2.2, hnew.2.2.2]
    omega
  have hlen : (Unsafering.FromPushes N vs).Len = min vs.length N := by
    unfold Unsafering.Buffer.Len
    rw [hcount, hinv.1]
    split <;> omega
  refine ⟨hlen, ?_, fun i w => atInWindow_fail_iff (Unsafering.FromPushes N vs) i w⟩
  have hvlen : 1 ≤ vs.length := List.length_pos.mpr hvs
  have hlast : Unsafering.FromPushes N vs =
      (Unsafering.FromPushes N vs.dropLast).Push (vs.getLast hvs) := by
    unfold Unsafering.FromPushes
    conv_lhs => rw [← List.dropLast_append_getLast hvs]
    rw [List.foldl_append]
    rfl
  have hinv' := foldl_push_invariants vs.dropLast (Unsafering.New Nat N)
    (by omega) hnew.2.1 hnew.2.2.1 (by omega)
  rw [hnew.1,
    show List.foldl Unsafering.Buffer.Push (Unsafering.New Nat N) vs.dropLast =
      Unsafering.FromPushes N vs.dropLast from rfl] at hinv'
  have hslot := push_getD_last (Unsafering.FromPushes N vs.dropLast)
    (vs.getLast hvs) (by rw [hinv'.1]; omega)
    (by rw [hinv'.2.1, hinv'.1]) (by rw [hinv'.1]; exact hinv'.2.2.1)
  rw [hinv'.1, ← hlast] at hslot
  have hAt := atInWindow_last (Unsafering.FromPushes N vs)
    (by rw [hinv.1]; omega) (by rw [hlen]; omega)
  rw [hAt, hinv.1, hslot]

theorem ring_capacity_witness :
    (Unsafering.FromPushes 3 [5, 6, 7, 8]).Len = min 4 3 ∧
    (Unsafering.FromPushes 3 [5, 6, 7, 8]).AtInWindow 2 3 =
      ([5, 6, 7, 8].getLast (by decide), true) := by
  have h := ring_capacity 3 (by decide) [5, 6, 7, 8] (by decide)
  refine ⟨h.1, ?_⟩
  have h2 := h.2.1
  have hlen : (Unsafering.FromPushes 3 [5, 6, 7, 8]).Len = 3 := by decide
  rw [hlen] at h2
  simpa using h2

/-! ### C3 — chat roster coherence -/

theorem mapLookup_insert_self {α : Type} (k : List Char) (v : α)
    (l : List (List Char × α)) : mapLookup k (mapInsert k v l) = some v := by
  simp [mapInsert, mapLookup]

theorem mapLookup_erase_ne {α : Type} (k k' : List Char)
    (l : List (List Char × α)) (h : k' ≠ k) :
    mapLookup k' (mapErase k l) = mapLookup k' l := by
  induction l with
  | nil => rfl
  | cons p l ih =>
    obtain ⟨pk, pv⟩ := p
    by_cases hpk : pk = k
    · have hk : ¬ pk = k' := fun hh => h (hh.symm.trans hpk)
      simp only [mapErase, if_pos hpk, mapLookup, if_neg hk]
      exact ih
    · simp only [mapErase, if_neg hpk, mapLookup]
      by_cases hpk' : pk = k'
      · simp [hpk']
      · simp [hpk', ih]

theorem mapLookup_erase_self {α : Type} (k : List Char)
    (l : List (List Char × α)) : mapLookup k (mapErase k l) = none := by
  induction l with
  | nil => rfl
  | cons p l ih =>
    obtain ⟨pk, pv⟩ := p
    by_cases hpk : pk = k
    · simp [mapErase, hpk, ih]
    · simp [mapErase, hpk, mapLookup, ih]

theorem mapLookup_insert_ne {α : Type} (k k' : List Char) (v : α)
    (l : List (List Char × α)) (h : k' ≠ k) :
    mapLookup k' (mapInsert k v l) = mapLookup k' l := by
  have hk : ¬ k = k' := fun hh => h (hh ▸ rfl)
  simp only [mapInsert, mapLookup, if_neg hk]
  exact mapLookup_erase_ne k k' l h

theorem mapErase_nil_lookup {α : Type} (k k' : List Char)
    (l : List (List Char × α)) (h : k' ≠ k) (he : mapErase k l = []) :
    mapLookup k' l = none := by
  induction l with
  | nil => rfl
  | cons p l ih =>
    obtain ⟨pk, pv⟩ := p
    by_cases hpk : pk = k
    · have hk : ¬ pk = k' := fun hh => h (hh ▸ hpk)
      simp only [mapErase, if_pos hpk] at he
      simp [mapLookup, hk, ih he]
    · simp only [mapErase, if_neg hpk] at he
      exact absurd he (List.cons_ne_nil _ _)

theorem mapContains_insert_self {α : Type} (k : List Char) (v : α)
    (l : List (List Char × α)) : mapContains k (mapInsert k v l) = true := by
  simp [mapContains, mapLookup_insert_self]

theorem mapContains_insert_ne {α : Type} (k k' : List Char) (v : α)
    (l : List (List Char × α)) (h : k' ≠ k) :
    mapContains k' (mapInsert k v l) = mapContains k' l := by
  simp [mapContains, mapLookup_insert_ne k k' v l h]

theorem mapContains_erase_self {α : Type} (k : List Char)
    (l : List (List Char × α)) : mapContains k (mapErase k l) = false := by
  simp [mapContains, mapLookup_erase_self]

theorem mapContains_erase_ne {α : Type} (k k' : List Char)
    (l : List (List Char × α)) (h : k' ≠ k) :
    mapContains k' (mapErase k l) = mapContains k' l := by
  simp [mapContains, mapLookup_erase_ne k k' l h]

/-- A connect for `sid`'s `(login, session)` pair puts `sid` in the roster. -/
theorem memRoster_applyConnect (t : Nat) (r : Chat.Roster) (s sid : List Char)
    (h : Chat.sidKey s = Chat.sidKey sid) :
    Chat.memRoster (Chat.applyConnect t r s) sid = true := by
  simp only [Chat.sidKey, Prod.mk.injEq] at h
  obtain ⟨h1, h2⟩ := h
  unfold Chat.applyConnect Chat.memRoster
  rw [← h1, ← h2]
  cases hl : mapLookup (cutChar ' ' s).1 r with
  | none =>
    simp [hl, mapLookup_insert_self, mapContains, mapLookup]
  | some sessions =>
    simp [hl, mapLookup_insert_self, mapContains_insert_self]

/-- A disconnect for `sid`'s `(login, session)` pair removes `sid` from the
roster. -/
theorem memRoster_applyDisconnect (r : Chat.Roster) (s sid : List Char)
    (h : Chat.sidKey s = Chat.sidKey sid) :
    Chat.memRoster (Chat.applyDisconnect r s) sid = false := by
  simp only [Chat.sidKey, Prod.mk.injEq] at h
  obtain ⟨h1, h2⟩ := h
  unfold Chat.applyDisconnect Chat.memRoster
  rw [← h1, ← h2]
  cases hl : mapLookup (cutChar ' ' s).1 r with
  | none => simp [hl, mapLookup_erase_self]
  | some sessions =>
    by_cases hlen : (mapErase (cutChar ' ' s).2.1 sessions).length = 0
    · simp [hl, hlen, mapLookup_erase_self]
    · simp [hl, hlen, mapLookup_insert_self, mapContains_erase_self]

/-- Events for a different `(login, session)` pair do not change whether `sid`
is in the roster. -/
theorem memRoster_frame (r : Chat.Roster) (e : Chat.Event) (sid : List Char)
    (h : Chat.sidKey (Chat.eventSid e) ≠ Chat.sidKey sid) :
    Chat.memRoster (Chat.applyEvent r e) sid = Chat.memRoster r sid := by
  cases e with
  | connect s =>
    have hs : Chat.eventSid (Chat.Event.connect s) = s := rfl
    rw [hs] at h
    have hcase : (cutChar ' ' s).1 ≠ (cutChar ' ' sid).1 ∨
        ((cutChar ' ' s).1 = (cutChar ' ' sid).1 ∧
          (cutChar ' ' s).2.1 ≠ (cutChar ' ' sid).2.1) := by
      by_cases hwho : (cutChar ' ' s).1 = (cutChar ' ' sid).1
      · refine Or.inr ⟨hwho, fun hsess => h ?_⟩
        simp only [Chat.sidKey, Prod.mk.injEq]
        exact ⟨hwho, hsess⟩
      · exact Or.inl hwho
    show Chat.memRoster (Chat.applyConnect 0 r s) sid = Chat.memRoster r sid
    unfold Chat.applyConnect Chat.memRoster
    rcases hcase with hwho | ⟨hwho, hsess⟩
    · cases hl : mapLookup (cutChar ' ' s).1 r with
      | none => simp [hl, mapLookup_insert_ne _ _ _ _ (Ne.symm hwho)]
      | some sessions =>
        simp [hl, mapLookup_insert_ne _ _ _ _ (Ne.symm hwho)]
    · rw [← hwho]
      cases hl : mapLookup (cutChar ' ' s).1 r with
      | none =>
        have hne : ¬ (cutChar ' ' s).2.1 = (cutChar ' ' sid).2.1 := hsess
        simp [hl, mapLookup_insert_self, mapContains, mapLookup, hne]
      | some sessions =>
        simp [hl, mapLookup_insert_self,
          mapContains_insert_ne _ _ _ _ (Ne.symm hsess)]
  | disconnect s =>
    have hs : Chat.eventSid (Chat.Event.disconnect s) = s := rfl
    rw [hs] at h
    have hcase : (cutChar ' ' s).1 ≠ (cutChar ' ' sid).1 ∨
        ((cutChar ' ' s).1 = (cutChar ' ' sid).1 ∧
          (cutChar ' ' s).2.1 ≠ (cutChar ' ' sid).2.1) := by
      by_cases hwho : (cutChar ' ' s).1 = (cutChar ' ' sid).1
      · refine Or.inr ⟨hwho, fun hsess => h ?_⟩
        simp only [Chat.sidKey, Prod.mk.injEq]
        exact ⟨hwho, hsess⟩
      · exact Or.inl hwho
    show Chat.memRoster (Chat.applyDisconnect r s) sid = Chat.memRoster r sid
    unfold Chat.applyDisconnect Chat.memRoster
    rcases hcase with hwho | ⟨hwho, hsess⟩
    · cases hl : mapLookup (cutChar ' ' s).1 r with
      | none => simp [hl, mapLookup_erase_ne _ _ _ (Ne.symm hwho)]
      | some sessions =>
        by_cases hlen : (mapErase (cutChar ' ' s).2.1 sessions).length = 0
        · simp [hl, hlen, mapLookup_erase_ne _ _ _ (Ne.symm hwho)]
        · simp [hl, hlen, mapLookup_insert_ne _ _ _ _ (Ne.symm hwho)]
    · rw [← hwho]
      cases hl : mapLookup (cutChar ' ' s).1 r with
      | none => simp [hl, mapLookup_erase_self]
      | some sessions =>
        by_cases hlen : (mapErase (cutChar ' ' s).2.1 sessions).length = 0
        · have hnil : mapErase (cutChar ' ' s).2.1 sessions = [] :=
            List.length_eq_zero.mp hlen
          have hlook := mapErase_nil_lookup _ _ sessions (Ne.symm hsess) hnil
          simp [hl, hlen, mapLookup_erase_self, mapContains, hlook]
        · simp [hl, hlen, mapLookup_insert_self,
            mapContains_erase_ne _ _ _ (Ne.symm hsess)]

/-- After processing an event list, membership of `sid` is decided by the last
event for `sid`'s `(login, session)` pair, falling back to the initial roster
when there is none. -/
theorem memRoster_applyEvents (es : List Chat.Event) (names : Chat.Roster)
    (sid : List Char) :
    Chat.memRoster (Chat.applyEvents names es) sid =
      match (es.filter (fun e =>
          Chat.sidKey (Chat.eventSid e) = Chat.sidKey sid)).getLast? with
      | some e => Chat.isConnect e
      | none => Chat.memRoster names sid := by
  induction es using List.reverseRecOn with
  | nil => rfl
  | append_singleton es e ih =>
    rw [show Chat.applyEvents names (es ++ [e]) =
      Chat.applyEvent (Chat.applyEvents names es) e from List.foldl_append ..]
    by_cases hm : Chat.sidKey (Chat.eventSid e) = Chat.sidKey sid
    · have hf : (es ++ [e]).filter (fun e =>
          Chat.sidKey (Chat.eventSid e) = Chat.sidKey sid) =
          es.filter (fun e =>
            Chat.sidKey (Chat.eventSid e) = Chat.sidKey sid) ++ [e] := by
        rw [List.filter_append]
        simp [hm]
      rw [hf, List.getLast?_concat]
      cases e with
      | connect s => exact memRoster_applyConnect 0 _ s sid hm
      | disconnect s => exact memRoster_applyDisconnect _ s sid hm
    · have hf : (es ++ [e]).filter (fun e =>
          Chat.sidKey (Chat.eventSid e) = Chat.sidKey sid) =
          es.filter (fun e =>
            Chat.sidKey (Chat.eventSid e) = Chat.sidKey sid) := by
        rw [List.filter_append]
        simp [hm]
      rw [hf, memRoster_frame _ e sid hm]
      exact ih

/-- C3 (counterexample): two connects followed by one disconnect for the same
session id ["a b"] leave the session out of the roster even though its
connect count (2) strictly exceeds its disconnect count (1) — the roster is a
set, not a counter. -/
theorem roster_coherence_counterexample :
    ¬ ((Chat.memRoster
          (Chat.applyEvents []
            [Chat.Event.connect ['a', ' ', 'b'],
             Chat.Event.connect ['a', ' ', 'b'],
             Chat.Event.disconnect ['a', ' ', 'b']])
          ['a', ' ', 'b'] = true) ↔
        Chat.countDisconnect ['a', ' ', 'b']
            [Chat.Event.connect ['a', ' ', 'b'],
             Chat.Event.connect ['a', ' ', 'b'],
             Chat.Event.disconnect ['a', ' ', 'b']] <
          Chat.countConnect ['a', ' ', 'b']
            [Chat.Event.connect ['a', ' ', 'b'],
             Chat.Event.connect ['a', ' ', 'b'],
             Chat.Event.disconnect ['a', ' ', 'b']]) := by
  decide

/-- C3 (amended): after any finite sequence of connect/disconnect events
applied to the empty roster, `sid` is present in the roster iff at least one
event was addressed to `sid`'s `(login, session)` pair and the last such event
is a connect. -/
theorem roster_coherence_amended (es : List Chat.Event) (sid : List Char) :
    Chat.memRoster (Chat.applyEvents [] es) sid = Chat.lastIsConnect sid es := by
  rw [memRoster_applyEvents es [] sid]
  unfold Chat.lastIsConnect
  cases (es.filter (fun e =>
      Chat.sidKey (Chat.eventSid e) = Chat.sidKey sid)).getLast? with
  | none => rfl
  | some e => rfl

/-! ### C7 — line clear -/

theorem cellCount_nil : Blokfall.cellCount [] = 0 := rfl

theorem cellCount_cons (r : List Nat) (l : List (List Nat)) :
    Blokfall.cellCount (r :: l) =
      (r.filter (· ≠ 0)).length + Blokfall.cellCount l := by
  simp [Blokfall.cellCount]

theorem cellCount_append (l1 l2 : List (List Nat)) :
    Blokfall.cellCount (l1 ++ l2) =
      Blokfall.cellCount l1 + Blokfall.cellCount l2 := by
  simp [Blokfall.cellCount]

theorem cellCount_filter_partition (p : List Nat → Bool) (l : List (List Nat)) :
    Blokfall.cellCount (l.filter p) +
      Blokfall.cellCount (l.filter (fun r => !p r)) = Blokfall.cellCount l := by
  induction l with
  | nil => rfl
  | cons r l ih =>
    by_cases hp : p r
    · simp [List.filter_cons, hp, cellCount_cons]
      omega
    · simp [List.filter_cons, hp, cellCount_cons]
      omega

/-- A row of the right width is "full" iff every cell is non-empty. -/
theorem isFullRow_iff (w : Nat) (row : List Nat) (hl : row.length = w) :
    Blokfall.isFullRow w row = true ↔ ∀ a ∈ row, a ≠ 0 := by
  unfold Blokfall.isFullRow
  rw [List.all_eq_true]
  constructor
  · intro h a ha
    obtain ⟨i, hi, hival⟩ := List.mem_iff_getElem.mp ha
    have hr := h i (List.mem_range.mpr (by omega))
    rw [List.getD_eq_getElem row 0 hi] at hr
    rw [← hival]
    simpa using hr
  · intro h i hi
    have hi' : i < row.length := by
      rw [hl]
      exact List.mem_range.mp hi
    rw [List.getD_eq_getElem row 0 hi']
    simpa using h _ (List.getElem_mem hi')

/-- A full row of width `w` contributes `w` non-empty cells. -/
theorem full_row_count (w : Nat) (row : List Nat) (hl : row.length = w)
    (hf : Blokfall.isFullRow w row = true) :
    (row.filter (· ≠ 0)).length = w := by
  rw [List.filter_eq_self.mpr ?_, hl]
  intro a ha
  simpa using (isFullRow_iff w row hl).mp hf a ha

theorem sum_replicate_nat (n k : Nat) : (List.replicate n k).sum = n * k := by
  simp [List.sum_replicate, smul_eq_mul]

/-- The full rows of a board of width `w` hold `w * count` non-empty cells. -/
theorem cellCount_full_rows (w : Nat) (l : List (List Nat))
    (hW : ∀ r ∈ l, r.length = w) :
    Blokfall.cellCount (l.filter (fun r => Blokfall.isFullRow w r)) =
      w * (l.filter (fun r => Blokfall.isFullRow w r)).length := by
  have hall : ∀ r ∈ l.filter (fun r => Blokfall.isFullRow w r),
      (r.filter (· ≠ 0)).length = w := by
    intro r hr
    obtain ⟨hmem, hfull⟩ := List.mem_filter.mp hr
    exact full_row_count w r (hW r hmem) hfull
  unfold Blokfall.cellCount
  rw [show (l.filter (fun r => Blokfall.isFullRow w r)).map
        (fun r => (r.filter (· ≠ 0)).length) =
      List.replicate (l.filter (fun r => Blokfall.isFullRow w r)).length w from ?_]
  · rw [sum_replicate_nat]
    exact Nat.mul_comm _ _
  · refine List.eq_replicate_iff.mpr ⟨by simp, ?_⟩
    intro x hx
    obtain ⟨r, hr, rfl⟩ := List.mem_map.mp hx
    exact hall r hr

/-- Closed form of `ClearLines` on a well-formed board: the cleared count is
the number of full rows, the new cells are that many empty rows on top of the
non-full rows in their original top-down order, and the dimensions are
unchanged. -/
theorem clearLines_eq (b : Blokfall.Board)
    (hH : b.cells.length = b.height) (hW : ∀ r ∈ b.cells, r.length = b.width) :
    (b.ClearLines).2 =
      (b.cells.filter (fun r => Blokfall.isFullRow b.width r)).length ∧
    (b.ClearLines).1.cells =
      List.replicate
          (b.cells.filter (fun r => Blokfall.isFullRow b.width r)).length
          (List.replicate b.width 0) ++
        b.cells.filter (fun r => !Blokfall.isFullRow b.width r) ∧
    (b.ClearLines).1.width = b.width ∧
    (b.ClearLines).1.height = b.height := by
  unfold Blokfall.Board.ClearLines
  simp only [List.filter_reverse]
  refine ⟨by simp, ?_, by trivial, by trivial⟩
  have hemp : ((b.cells.filter (fun r => Blokfall.isFullRow b.width r)).reverse).map
        (fun r => r.map (fun _ => 0)) =
      List.replicate (b.cells.filter
          (fun r => Blokfall.isFullRow b.width r)).length
        (List.replicate b.width 0) := by
    refine List.eq_replicate_iff.mpr ⟨by simp, ?_⟩
    intro x hx
    obtain ⟨r, hr, rfl⟩ := List.mem_map.mp hx
    rw [List.mem_reverse] at hr
    obtain ⟨hmem, -⟩ := List.mem_filter.mp hr
    rw [show r.map (fun _ => 0) = List.replicate r.length 0 from
      List.map_const' r 0, hW r hmem]
  rw [hemp]
  have hpart : (b.cells.filter (fun r => !Blokfall.isFullRow b.width r)).length +
      (b.cells.filter (fun r => Blokfall.isFullRow b.width r)).length =
      b.height := by
    have := List.length_eq_length_filter_add
      (l := b.cells) (fun r => Blokfall.isFullRow b.width r)
    omega
  have hpad : b.height -
      (((b.cells.filter (fun r => !Blokfall.isFullRow b.width r)).reverse).length +
        (List.replicate (b.cells.filter
            (fun r => Blokfall.isFullRow b.width r)).length
          (List.replicate b.width 0)).length) = 0 := by
    simp only [List.length_reverse, List.length_replicate]
    omega
  rw [List.length_append, hpad, List.replicate_zero, List.append_nil]
  rw [List.reverse_append, List.reverse_reverse, List.reverse_replicate]

/-- `ClearLines` removes exactly `width` non-empty cells per cleared line. -/
theorem cellCount_clearLines (b : Blokfall.Board)
    (hH : b.cells.length = b.height) (hW : ∀ r ∈ b.cells, r.length = b.width) :
    Blokfall.cellCount (b.ClearLines).1.cells =
      Blokfall.cellCount b.cells - b.width * (b.ClearLines).2 := by
  obtain ⟨h2, h1, -, -⟩ := clearLines_eq b hH hW
  rw [h1, h2, cellCount_append]
  have hzero : Blokfall.cellCount
      (List.replicate (b.cells.filter
          (fun r => Blokfall.isFullRow b.width r)).length
        (List.replicate b.width 0)) = 0 := by
    unfold Blokfall.cellCount
    rw [List.map_replicate]
    simp [sum_replicate_nat]
  rw [hzero]
  have hpart := cellCount_filter_partition
    (fun r => Blokfall.isFullRow b.width r) b.cells
  have hfull := cellCount_full_rows b.width b.cells hW
  omega

/-- `writeBlock` preserves the board dimensions. -/
theorem writeBlock_dims (b : Blokfall.Board) (y x : Int) (c : Nat)
    (hH : b.cells.length = b.height) (hW : ∀ r ∈ b.cells, r.length = b.width) :
    (Blokfall.writeBlock b y x c).width = b.width ∧
    (Blokfall.writeBlock b y x c).height = b.height ∧
    (Blokfall.writeBlock b y x c).cells.length = b.height ∧
    ∀ r ∈ (Blokfall.writeBlock b y x c).cells, r.length = b.width := by
  unfold Blokfall.writeBlock
  split
  · rename_i hin
    refine ⟨rfl, rfl, by simp [hH], ?_⟩
    intro r hr
    rcases List.mem_or_eq_of_mem_set hr with hmem | rfl
    · exact hW r hmem
    · rw [List.length_set]
      have hy : y.toNat < b.cells.length := by omega
      exact hW _ (List.getD_eq_getElem b.cells [] hy ▸ List.getElem_mem hy)
  · exact ⟨rfl, rfl, hH, hW⟩

/-- Writing a piece's blocks preserves the board dimensions. -/
theorem lockPieceCells_dims (b : Blokfall.Board) (p : Blokfall.Piece)
    (hH : b.cells.length = b.height) (hW : ∀ r ∈ b.cells, r.length = b.width) :
    (b.LockPieceCells p).width = b.width ∧
    (b.LockPieceCells p).height = b.height ∧
    (b.LockPieceCells p).cells.length = b.height ∧
    ∀ r ∈ (b.LockPieceCells p).cells, r.length = b.width := by
  unfold Blokfall.Board.LockPieceCells
  induction p.blocks generalizing b with
  | nil => exact ⟨rfl, rfl, hH, hW⟩
  | cons blk blks ih =>
    simp only [List.foldl_cons]
    have hw := writeBlock_dims b (p.y + blk.2) (p.x + blk.1) p.color hH hW
    have := ih (Blokfall.writeBlock b (p.y + blk.2) (p.x + blk.1) p.color)
      (by rw [hw.2.2.1, hw.2.1]) (by rw [hw.1] at *; exact hw.2.2.2)
    rw [hw.1, hw.2.1] at this
    exact this

/-- C7: on a well-formed board, `ClearLines` clears exactly the full rows,
reinserts that many empty rows at the top, preserves the non-full rows in
their relative order and the board height; consequently locking a piece and
clearing leaves the non-empty-cell count at the post-write count minus
`width` times the number of cleared lines. -/
theorem clear_lines_spec (b : Blokfall.Board)
    (hH : b.cells.length = b.height) (hW : ∀ r ∈ b.cells, r.length = b.width) :
    (b.ClearLines).2 =
      (b.cells.filter (fun r => Blokfall.isFullRow b.width r)).length ∧
    (b.ClearLines).1.cells =
      List.replicate (b.ClearLines).2 (List.replicate b.width 0) ++
        b.cells.filter (fun r => !Blokfall.isFullRow b.width r) ∧
    (b.ClearLines).1.cells.length = b.height ∧
    (∀ r ∈ b.cells, (Blokfall.isFullRow b.width r = true ↔ ∀ a ∈ r, a ≠ 0)) ∧
    Blokfall.cellCount (b.ClearLines).1.cells =
      Blokfall.cellCount b.cells - b.width * (b.ClearLines).2 ∧
    ∀ p : Blokfall.Piece,
      Blokfall.cellCount (b.LockPiece p).1.cells =
        Blokfall.cellCount (b.LockPieceCells p).cells -
          b.width * (b.LockPiece p).2 := by
  obtain ⟨h2, h1, -, -⟩ := clearLines_eq b hH hW
  have hpart : (b.cells.filter (fun r => !Blokfall.isFullRow b.width r)).length +
      (b.cells.filter (fun r => Blokfall.isFullRow b.width r)).length =
      b.height := by
    have := List.length_eq_length_filter_add
      (l := b.cells) (fun r => Blokfall.isFullRow b.width r)
    omega
  refine ⟨h2, by rw [h1, h2], ?_, ?_, cellCount_clearLines b hH hW, ?_⟩
  · rw [h1, List.length_append, List.length_replicate]
    omega
  · intro r hr
    exact isFullRow_iff b.width r (hW r hr)
  · intro p
    have hd := lockPieceCells_dims b p hH hW
    have := cellCount_clearLines (b.LockPieceCells p)
      (by rw [hd.2.2.1, hd.2.1]) (by rw [hd.1] at *; exact hd.2.2.2)
    rw [hd.1] at this
    exact this

theorem clear_lines_spec_witness :
    (Blokfall.Board.ClearLines ⟨2, 3, [[0, 0], [1, 2], [3, 4]]⟩).2 =
      (([[0, 0], [1, 2], [3, 4]] : List (List Nat)).filter
        (fun r => Blokfall.isFullRow 2 r)).length ∧
    (Blokfall.Board.ClearLines ⟨2, 3, [[0, 0], [1, 2], [3, 4]]⟩).1.cells.length = 3 := by
  have h := clear_lines_spec ⟨2, 3, [[0, 0], [1, 2], [3, 4]]⟩ (by decide)
    (by decide)
  exact ⟨h.1, h.2.2.1⟩

/-! ### C8 — collision-free motion -/

/-- Unfolding of `Board.Collides = false`: every block is inside the side and
bottom bounds and overlaps no locked cell. -/
theorem collides_false_iff (b : Blokfall.Board) (p : Blokfall.Piece) :
    b.Collides p = false ↔ ∀ blk ∈ p.blocks,
      0 ≤ p.x + blk.1 ∧ p.x + blk.1 < (b.width : Int) ∧
      p.y + blk.2 < (b.height : Int) ∧
      (0 ≤ p.y + blk.2 →
        Blokfall.cellAt b (p.y + blk.2) (p.x + blk.1) = 0) := by
  unfold Blokfall.Board.Collides
  rw [List.any_eq_false]
  apply forall_congr'
  intro blk
  apply imp_congr_right
  intro _
  show ¬ ((if p.x + blk.1 < 0 ∨ p.x + blk.1 ≥ (b.width : Int) ∨
        p.y + blk.2 ≥ (b.height : Int) then true
      else if 0 ≤ p.y + blk.2 ∧
          Blokfall.cellAt b (p.y + blk.2) (p.x + blk.1) ≠ 0 then true
      else false) = true) ↔ _
  by_cases h1 : p.x + blk.1 < 0 ∨ p.x + blk.1 ≥ (b.width : Int) ∨
      p.y + blk.2 ≥ (b.height : Int)
  · rw [if_pos h1]
    constructor
    · intro hno
      exact absurd rfl hno
    · rintro ⟨ha, hb, hc, -⟩ -
      rcases h1 with h | h | h <;> omega
  · rw [if_neg h1]
    by_cases h2 : 0 ≤ p.y + blk.2 ∧
        Blokfall.cellAt b (p.y + blk.2) (p.x + blk.1) ≠ 0
    · rw [if_pos h2]
      constructor
      · intro hno
        exact absurd rfl hno
      · rintro ⟨-, -, -, hcell⟩ -
        exact h2.2 (hcell h2.1)
    · rw [if_neg h2]
      push_neg at h1 h2
      constructor
      · intro _
        refine ⟨by omega, by omega, by omega, fun hy => h2 hy⟩
      · intro _
        simp

/-- C8: every successful (non-reverted) move — Left, Right, RotateCW,
RotateCCW, or a gravity/soft-drop step — leaves every block of the piece
inside `0 ≤ x < W`, `y < H`, overlapping no locked cell. -/
theorem collision_free_motion (b : Blokfall.Board) (p p' : Blokfall.Piece)
    (mv : Blokfall.Move) (h : Blokfall.tryMove b mv p = (p', true)) :
    ∀ blk ∈ p'.blocks,
      0 ≤ p'.x + blk.1 ∧ p'.x + blk.1 < (b.width : Int) ∧
      p'.y + blk.2 < (b.height : Int) ∧
      (0 ≤ p'.y + blk.2 →
        Blokfall.cellAt b (p'.y + blk.2) (p'.x + blk.1) = 0) := by
  unfold Blokfall.tryMove at h
  by_cases hc : b.Collides (Blokfall.movedPiece mv p)
  · rw [if_pos hc] at h
    exact absurd (congrArg Prod.snd h) (by simp)
  · rw [if_neg hc] at h
    have hp' : Blokfall.movedPiece mv p = p' := congrArg Prod.fst h
    rw [← hp']
    exact (collides_false_iff b (Blokfall.movedPiece mv p)).mp
      (Bool.not_eq_true _ ▸ hc)

theorem collision_free_motion_witness :
    Blokfall.tryMove ⟨2, 2, [[0, 0], [0, 0]]⟩ .left ⟨[], [(0, 0)], 1, 0, 5⟩ =
      (⟨[], [(0, 0)], 0, 0, 5⟩, true) ∧
    (0 : Int) ≤ 0 + 0 ∧ (0 : Int) + 0 < (2 : Int) ∧
    Blokfall.cellAt ⟨2, 2, [[0, 0], [0, 0]]⟩ (0 + 0) (0 + 0) = 0 := by
  have h := collision_free_motion ⟨2, 2, [[0, 0], [0, 0]]⟩
    ⟨[], [(0, 0)], 1, 0, 5⟩ ⟨[], [(0, 0)], 0, 0, 5⟩ .left (by rfl)
    (0, 0) (by simp)
  exact ⟨by rfl, by simp, by simp, h.2.2.2 (by simp)⟩

/-! ### C1 — bootstrap precedes live, batches preserve order -/

/-- The coalescing loop neither loses, reorders, nor invents items: the
emitted batch followed by the unconsumed stream is the accumulated batch
followed by the incoming stream, and the batch only grows. -/
theorem fillBatch_spec {μ : Type} (avail dl : Nat → Bool) (rest : List μ) :
    ∀ (k : Nat) (cur : List μ),
      (Mpty.fillBatch avail dl k cur rest).1 ++
        (Mpty.fillBatch avail dl k cur rest).2.1 = cur ++ rest ∧
      cur.length ≤ (Mpty.fillBatch avail dl k cur rest).1.length := by
  induction rest with
  | nil =>
    intro k cur
    simp [Mpty.fillBatch]
  | cons y rest ih =>
    intro k cur
    by_cases ha : avail k
    · by_cases hd : dl k
      · simp [Mpty.fillBatch, ha, hd]
      · have hrec := ih (k + 1) (cur ++ [y])
        simp only [Mpty.fillBatch, ha, hd, Bool.not_true, Bool.false_eq_true,
          if_false, ite_false]
        refine ⟨?_, ?_⟩
        · rw [hrec.1]
          simp
        · calc cur.length ≤ (cur ++ [y]).length := by simp
            _ ≤ _ := hrec.2
    · simp [Mpty.fillBatch, ha]

/-- Concatenating the emitted batches reproduces the subscriber stream in
order. -/
theorem readBatchesFuel_flatten {μ : Type} (avail dl : Nat → Bool) :
    ∀ (fuel k : Nat) (stream : List μ), stream.length ≤ fuel →
      (Mpty.readBatchesFuel avail dl fuel k stream).flatten = stream := by
  intro fuel
  induction fuel with
  | zero =>
    intro k stream h
    have hnil : stream = [] := List.eq_nil_of_length_eq_zero (by omega)
    subst hnil
    rfl
  | succ fuel ih =>
    intro k stream h
    cases stream with
    | nil => rfl
    | cons x rest =>
      have hs := fillBatch_spec avail dl rest (k + 1) [x]
      have hlens := congrArg List.length hs.1
      simp only [List.length_append, List.length_cons, List.length_nil] at hlens
      have hrest : (Mpty.fillBatch avail dl (k + 1) [x] rest).2.1.length ≤ fuel := by
        have hb := hs.2
        simp only [List.length_cons, List.length_nil] at hb hlens
        simp only [List.length_cons] at h
        omega
      show ((Mpty.fillBatch avail dl (k + 1) [x] rest).1 ::
          Mpty.readBatchesFuel avail dl fuel
            (Mpty.fillBatch avail dl (k + 1) [x] rest).2.2
            (Mpty.fillBatch avail dl (k + 1) [x] rest).2.1).flatten = x :: rest
      rw [List.flatten_cons, ih _ _ hrest]
      simpa using hs.1

theorem readBatches_flatten {μ : Type} (avail dl : Nat → Bool)
    (stream : List μ) :
    (Mpty.readBatches avail dl stream).flatten = stream :=
  readBatchesFuel_flatten avail dl stream.length 0 stream (le_refl _)

/-- The bootstrap replay is the last `n` saved records in save order. -/
theorem readRecent_drop (store : List Mpty.RecMsg) (n : Nat) :
    Mpty.ReadRecent store n = store.drop (store.length - n) := by
  unfold Mpty.ReadRecent
  rw [List.take_reverse, List.reverse_reverse]

/-- C1: the client's delivery sequence starts with the inner init, the input
handle and the disconnect waiter, then the bootstrap replay — the last
`INITIAL_REPLAY` store records, oldest first — as one batch, and only then
the live batches, whose concatenation is exactly the post-subscription stream
in bus order. -/
theorem bootstrap_before_live {μ : Type} (store : List Mpty.RecMsg) (n : Nat)
    (avail dl : Nat → Bool) (stream : List μ) :
    Mpty.ClientDeliveries (Mpty.ReadRecent store n) avail dl stream =
      [.innerInit, .inputHandle, .disconnectWaiter,
        .bootstrap (Mpty.ReadRecent store n)] ++
        (Mpty.readBatches avail dl stream).map .live ∧
    (Mpty.readBatches avail dl stream).flatten = stream ∧
    Mpty.ReadRecent store n = store.drop (store.length - n) ∧
    (Mpty.ClientDeliveries (Mpty.ReadRecent store n) avail dl stream)[3]? =
      some (.bootstrap (Mpty.ReadRecent store n)) ∧
    ∀ (i : Nat) (batch : List μ),
      (Mpty.ClientDeliveries (Mpty.ReadRecent store n) avail dl stream)[i]? =
        some (.live batch) → 3 < i := by
  refine ⟨rfl, readBatches_flatten avail dl stream,
    readRecent_drop store n, by simp [Mpty.ClientDeliveries], ?_⟩
  intro i batch h
  match i with
  | 0 => simp [Mpty.ClientDeliveries] at h
  | 1 => simp [Mpty.ClientDeliveries] at h
  | 2 => simp [Mpty.ClientDeliveries] at h
  | 3 => simp [Mpty.ClientDeliveries] at h
  | (i + 4) => omega

theorem bootstrap_before_live_witness :
    (Mpty.readBatches (fun _ => false) (fun _ => false)
        ([1] : List Nat)).flatten = [1] ∧
    3 < 4 := by
  have h := bootstrap_before_live ([] : List Mpty.RecMsg) 0
    (fun _ => false) (fun _ => false) ([1] : List Nat)
  exact ⟨h.2.1, h.2.2.2.2 4 [1] (by simp [Mpty.ClientDeliveries, Mpty.readBatches, Mpty.readBatchesFuel, Mpty.fillBatch])⟩
